import Mathlib

/-!
Shallow embedding of `urbit/keygen-js` (`src/index.js`) together with proofs
about its sharding scheme and key-derivation tree.

Byte sequences are modelled as `List Nat`; the external cryptographic
primitives (SHA-512 digest, bip32 `fromSeed`, nacl's `crypto_hash` and
`sign.keyPair.fromSeed`) are parameters of the embedded functions, since the
library treats them as opaque boundary collaborators.
-/

namespace Keygen

/-- Byte sequences (JS `Buffer` / `Uint8Array` / plain arrays of integers). -/
abbrev Bytes := List Nat

/-- The two hex characters of one byte, as produced by
`b.toString(16).padStart(2, '0')` for `b < 256`.  `Nat.digitChar` is exactly
the digit alphabet `0-9a-f` used by JS `toString(16)`. -/
def byteToHexChars (b : Nat) : List Char :=
  [Nat.digitChar (b / 16), Nat.digitChar (b % 16)]

/-- `buf2hex` from the source: every byte to two lowercase hex digits. -/
def buf2hex (buffer : Bytes) : String :=
  ⟨(buffer.map byteToHexChars).flatten⟩

/-- Value of one hex character (`0-9`, `a-f`, `A-F`), as accepted by
`Buffer.from(-, 'hex')`. -/
def hexCharVal (c : Char) : Option Nat :=
  if 48 ≤ c.toNat ∧ c.toNat ≤ 57 then some (c.toNat - 48)
  else if 97 ≤ c.toNat ∧ c.toNat ≤ 102 then some (c.toNat - 87)
  else if 65 ≤ c.toNat ∧ c.toNat ≤ 70 then some (c.toNat - 55)
  else none

/-- Hex decoding of a character list: pairs of hex digits until the first
ill-formed pair (Node's `Buffer.from(-, 'hex')` stops there), dropping an odd
trailing digit. -/
def hex2bufAux : List Char → Bytes
  | c1 :: c2 :: rest =>
    match hexCharVal c1, hexCharVal c2 with
    | some hi, some lo => (16 * hi + lo) :: hex2bufAux rest
    | _, _ => []
  | _ => []

/-- `hex2buf` from the source, i.e. `Buffer.from(hex, 'hex')`. -/
def hex2buf (hex : String) : Bytes :=
  hex2bufAux hex.data

/-- `Buffer.from(string)`: the byte sequence of a string.  The library only
ever feeds ASCII strings (hex strings and salt strings) through this, where
the UTF-8 bytes are the code points. -/
def strBytes (s : String) : Bytes :=
  s.data.map Char.toNat

/-- `Buffer.from(array)`: JS truncates every entry to a byte. -/
def bufferFromArray (arr : Bytes) : Bytes :=
  arr.map (· % 256)

/-- `splitAt` from the source: `[str.slice(0, index), str.slice(index)]`. -/
def splitAt (index : Nat) (str : String) : String × String :=
  (⟨str.data.take index⟩, ⟨str.data.drop index⟩)

/-- `lodash.zipWith(a, b, (x, y) => x ^ y)`: lodash zips to the longer input,
and in JS `undefined ^ y` coerces `undefined` to `0`, so the shorter operand
is in effect padded with zero bytes. -/
def zipWithXor : Bytes → Bytes → Bytes
  | [], b => b
  | a, [] => a
  | x :: xs, y :: ys => (x ^^^ y) :: zipWithXor xs ys

/-- `reduceByXor` from the source.  `Array.prototype.reduce` with no initial
value throws a `TypeError` on an empty array, modelled by `none`. -/
def reduceByXor (arrays : List Bytes) : Option Bytes :=
  match arrays with
  | [] => none
  | a :: rest => some (rest.foldl (fun acc arr => zipWithXor acc arr) a)

/-- Worker for `uniqWith`: keep a value unless it already occurs among the
values kept so far (`seen`). -/
def uniqWithAux (seen : List Bytes) : List Bytes → List Bytes
  | [] => []
  | x :: xs => if x ∈ seen then uniqWithAux seen xs else x :: uniqWithAux (x :: seen) xs

/-- `lodash.uniqWith(l, lodash.isEqual)`: keep the first occurrence of every
value, comparing by structural equality. -/
def uniqWith (l : List Bytes) : List Bytes :=
  uniqWithAux [] l

/-- `shardBuffer` from the source, with the two random pads
(`crypto.getRandomValues(new Uint8Array(buffer.length))`) passed explicitly
as `r1` and `r2`. -/
def shardBuffer (r1 r2 : Bytes) (buffer : Bytes) : List (List Bytes) :=
  let k := buffer
  let k1 := r1
  let k2 := r2
  -- the reduced list is non-empty, so the reduce cannot fail
  let k0 := (reduceByXor [k, k1, k2]).getD []
  [[k0, k1], [k0, k2], [k1, k2]]

/-- `combineBuffer` from the source: flatten, deduplicate by value, XOR-reduce,
rebuild a buffer. -/
def combineBuffer (shards : List (List Bytes)) : Option Bytes :=
  let flattened := shards.flatten
  let uniques := uniqWith flattened
  (reduceByXor uniques).map bufferFromArray

/-- `shard` from the source: hex-decode, shard the buffer, and hex-encode each
shard as the concatenation of its two pads. -/
def shard (r1 r2 : Bytes) (hex : String) : List String :=
  let buffer := hex2buf hex
  let sharded := shardBuffer r1 r2 buffer
  sharded.map (fun pair => pair.foldl (fun acc arr => acc ++ buf2hex (bufferFromArray arr)) "")

/-- `combine` from the source: split each hex shard in half, decode the two
pads, and recombine. -/
def combine (shards : List String) : Option String :=
  let splat := shards.map (fun s => splitAt (s.length / 2) s)
  let buffers := splat.map (fun pair => [hex2buf pair.1, hex2buf pair.2])
  (combineBuffer buffers).map buf2hex

/-! ## Derivation tree -/

/-- Result of the external HD-wallet primitive `bip32.fromSeed`. -/
structure Bip32Keys where
  publicKey : Bytes
  privateKey : Bytes
  chainCode : Bytes
deriving DecidableEq, Repr

/-- Hex-encoded HD wallet triple returned by `walletFromSeed`. -/
structure WalletKeys where
  public : String
  «private» : String
  chain : String
deriving DecidableEq, Repr

/-- The config consumed by `childSeedFromSeed` / `childNodeFromSeed`.
`ship = none` models both an absent `ship` and `ship: null` (the code tests
`isNumber(ship)`); `password = none` models an absent password. -/
structure ChildSeedConfig where
  seed : Bytes
  type : String
  revision : Nat
  ship : Option Nat
  password : Option String
deriving DecidableEq, Repr

/-- The salt string: `` `${type}-${revision}-${ship}` `` when `isNumber(ship)`,
else `` `${type}-${revision}` ``. -/
def childSalt (type : String) (revision : Nat) (ship : Option Nat) : String :=
  match ship with
  | some s => type ++ "-" ++ Nat.repr revision ++ "-" ++ Nat.repr s
  | none => type ++ "-" ++ Nat.repr revision

/-- `childSeedFromSeed`, with the SHA-512 digest service passed as `digest`
(`hash` in the source concatenates its arguments and digests them). -/
def childSeedFromSeed (digest : Bytes → Bytes) (config : ChildSeedConfig) : Bytes :=
  let salt := childSalt config.type config.revision config.ship
  let childSeed := digest (config.seed ++ strBytes salt ++ strBytes (config.password.getD ""))
  childSeed.take config.seed.length

/-- `walletFromSeed`, with the digest service and the external
`bip32.fromSeed` primitive passed as parameters. -/
def walletFromSeed (digest : Bytes → Bytes) (fromSeed : Bytes → Bip32Keys)
    (seed : Bytes) (password : Option String) : WalletKeys :=
  let seedHash := digest (seed ++ strBytes (password.getD ""))
  let node := fromSeed seedHash
  { public := buf2hex node.publicKey
    «private» := buf2hex node.privateKey
    chain := buf2hex node.chainCode }

/-- Node metadata (`meta` object of a child node). -/
structure NodeMeta where
  type : String
  revision : Nat
  ship : Option Nat
deriving DecidableEq, Repr

/-- A derived node: metadata, hex-encoded seed, HD wallet keys. -/
structure ChildNode where
  meta : NodeMeta
  seed : String
  keys : WalletKeys
deriving DecidableEq, Repr

/-- `childNodeFromSeed`.  Note that the node's keys are computed from the
hex-encoded child seed string (`walletFromSeed(childSeedBuffer, password)`
hashes the UTF-8 bytes of the hex string). -/
def childNodeFromSeed (digest : Bytes → Bytes) (fromSeed : Bytes → Bip32Keys)
    (config : ChildSeedConfig) : ChildNode :=
  let childSeed := childSeedFromSeed digest config
  let childSeedBuffer := buf2hex childSeed
  { meta := { type := config.type, revision := config.revision, ship := config.ship }
    seed := childSeedBuffer
    keys := walletFromSeed digest fromSeed (strBytes childSeedBuffer) config.password }

/-! ## Urbit network keys -/

/-- A dynamically-typed JS argument as it may be handed to
`urbitKeysFromSeed`'s `password` parameter. -/
inductive JsArg where
  | undef
  | str (s : String)
  | buf (b : Bytes)
deriving DecidableEq, Repr

/-- `Buffer.concat` accepts only `Buffer`/`Uint8Array` entries; an `undefined`
or string entry raises a `TypeError` (modelled by `none`). -/
def argToBuffer : JsArg → Option Bytes
  | .buf b => some b
  | _ => none

/-- `naclHash`: reverse the input in place, then `crypto_hash` (SHA-512,
passed here as `hash64`) over the whole reversed buffer. -/
def naclHash (hash64 : Bytes → Bytes) (seed : Bytes) : Bytes :=
  hash64 seed.reverse

/-- One hex-encoded signature keypair of the `urbitKeysFromSeed` result. -/
structure SignKeyPairHex where
  «private» : String
  public : String
deriving DecidableEq, Repr

/-- The `urbitKeysFromSeed` result: crypt and auth keypairs. -/
structure UrbitKeys where
  crypt : SignKeyPairHex
  auth : SignKeyPairHex
deriving DecidableEq, Repr

/-- The body of `urbitKeysFromSeed` once `bufferConcat([seed, password])` has
succeeded.  `kpPub` is the external `nacl.sign.keyPair.fromSeed(-).publicKey`
primitive. -/
def urbitKeysFromBytes (hash64 kpPub : Bytes → Bytes) (seed password : Bytes) : UrbitKeys :=
  let h := naclHash hash64 (seed ++ password)
  -- c = h.slice(32), a = h.slice(0, 32)
  let c := h.drop 32
  let a := h.take 32
  let cryptPublic := kpPub c
  let authPublic := kpPub a
  { crypt := { «private» := buf2hex c.reverse, public := buf2hex cryptPublic.reverse }
    auth := { «private» := buf2hex a.reverse, public := buf2hex authPublic.reverse } }

/-- `urbitKeysFromSeed` at the JS surface: the `password` argument is
concatenated with `bufferConcat([seed, password])`, which throws when the
password is omitted (`undefined`) or is a string. -/
def urbitKeysFromSeed (hash64 kpPub : Bytes → Bytes) (seed : Bytes) (password : JsArg) :
    Option UrbitKeys :=
  (argToBuffer password).map (fun pw => urbitKeysFromBytes hash64 kpPub seed pw)

/-! ## Full wallet assembly -/

/-- The optional `revisions` override map of `fullWalletFromSeed`; a `none`
field models a key missing from the JS object (`get(revisions, k, 0)`). -/
structure RevisionsConfig where
  transfer : Option Nat
  spawn : Option Nat
  delegate : Option Nat
  manage : Option Nat
  network : Option Nat
deriving DecidableEq, Repr

/-- A network node of the assembled wallet. -/
structure NetworkNode where
  seed : String
  keys : UrbitKeys
  meta : NodeMeta
deriving DecidableEq, Repr

/-- The ownership node of the assembled wallet. -/
structure OwnerNode where
  keys : WalletKeys
  seed : String
deriving DecidableEq, Repr

/-- The assembled full HD wallet. -/
structure Wallet where
  owner : OwnerNode
  delegate : ChildNode
  manage : ChildNode
  network : List NetworkNode
  transfer : List ChildNode
  spawn : List ChildNode
deriving DecidableEq, Repr

/-- The config consumed by `fullWalletFromSeed`. -/
structure FullWalletConfig where
  ownerSeed : Bytes
  ships : List Nat
  password : Option String
  revisions : RevisionsConfig
  boot : Bool
deriving DecidableEq, Repr

/-- `fullWalletFromSeed`.  The external primitives (`digest` for SHA-512,
`fromSeed` for bip32, `hash64` for nacl's `crypto_hash`, `kpPub` for
`nacl.sign.keyPair.fromSeed(-).publicKey`) are passed as parameters.
`networkNodes` pairs `networkSeeds` with `ships` to model `ships[index]`;
the two lists have the same length because `networkSeeds` is a map over
`ships`. -/
def fullWalletFromSeed (digest : Bytes → Bytes) (fromSeed : Bytes → Bip32Keys)
    (hash64 kpPub : Bytes → Bytes) (config : FullWalletConfig) : Wallet :=
  let revTransfer := config.revisions.transfer.getD 0
  let revSpawn := config.revisions.spawn.getD 0
  let revDelegate := config.revisions.delegate.getD 0
  let revManage := config.revisions.manage.getD 0
  let revNetwork := config.revisions.network.getD 0
  let ownershipNode : OwnerNode :=
    { keys := walletFromSeed digest fromSeed config.ownerSeed config.password
      seed := buf2hex config.ownerSeed }
  let managementNode := childNodeFromSeed digest fromSeed
    { seed := config.ownerSeed, type := "manage", revision := revManage
      ship := none, password := config.password }
  let delegateNode := childNodeFromSeed digest fromSeed
    { seed := config.ownerSeed, type := "delegate", revision := revDelegate
      ship := none, password := config.password }
  let transferNodes := config.ships.map (fun ship => childNodeFromSeed digest fromSeed
    { seed := config.ownerSeed, type := "transfer", revision := revTransfer
      ship := some ship, password := config.password })
  let spawnNodes := config.ships.map (fun ship => childNodeFromSeed digest fromSeed
    { seed := config.ownerSeed, type := "spawn", revision := revSpawn
      ship := some ship, password := config.password })
  let networkSeeds := if config.boot = true then
      config.ships.map (fun ship => childSeedFromSeed digest
        { seed := strBytes managementNode.seed, type := "network", revision := revNetwork
          ship := some ship, password := config.password })
    else []
  let networkNodes := if config.boot = true then
      (networkSeeds.zip config.ships).map (fun p =>
        { seed := buf2hex p.1
          keys := urbitKeysFromBytes hash64 kpPub p.1 (strBytes (config.password.getD ""))
          meta := { type := "network", revision := revNetwork, ship := some p.2 } : NetworkNode })
    else []
  { owner := ownershipNode
    delegate := delegateNode
    manage := managementNode
    network := networkNodes
    transfer := transferNodes
    spawn := spawnNodes }

/-- The owner node of a sharded wallet: its seed replaced by the shard set. -/
structure ShardedOwnerNode where
  keys : WalletKeys
  seed : List String
deriving DecidableEq, Repr

/-- A wallet whose owner seed has been sharded. -/
structure ShardedWallet where
  owner : ShardedOwnerNode
  delegate : ChildNode
  manage : ChildNode
  network : List NetworkNode
  transfer : List ChildNode
  spawn : List ChildNode
deriving DecidableEq, Repr

/-- `shardWallet`: deep-clone the wallet and replace `owner.seed` by the shard
set of the original owner seed (pads `r1`, `r2` passed explicitly). -/
def shardWallet (r1 r2 : Bytes) (wallet : Wallet) : ShardedWallet :=
  { owner := { keys := wallet.owner.keys, seed := shard r1 r2 wallet.owner.seed }
    delegate := wallet.delegate
    manage := wallet.manage
    network := wallet.network
    transfer := wallet.transfer
    spawn := wallet.spawn }

/-! ## Concrete stand-ins for the external primitives (used by witnesses) -/

/-- A digest with the fixed 64-byte output width of SHA-512. -/
def digest0 : Bytes → Bytes := fun _ => List.range 64

/-- A bip32 `fromSeed` stand-in. -/
def fs0 : Bytes → Bip32Keys := fun s => ⟨s, s, s⟩

/-- A `nacl.sign.keyPair.fromSeed(-).publicKey` stand-in. -/
def kp0 : Bytes → Bytes := fun s => s

/-- A concrete assembler configuration with one target ship and `boot` on. -/
def cfgW : FullWalletConfig :=
  { ownerSeed := [1, 2], ships := [7], password := none
    revisions := ⟨none, none, none, none, none⟩, boot := true }

/-- A concrete assembler configuration with `boot` off. -/
def cfgW' : FullWalletConfig :=
  { ownerSeed := [1, 2], ships := [7], password := none
    revisions := ⟨none, none, none, none, none⟩, boot := false }

/-- An injective encoding of byte lists into a single `Nat`, used to build a
truncation-collision-free digest stand-in for witnesses. -/
def listEncode (l : Bytes) : Nat :=
  l.foldr (fun a b => Nat.pair a b + 1) 0

/-- A digest stand-in whose one-element output determines its input. -/
def digestInj : Bytes → Bytes := fun l => [listEncode l]

/-! ## Helper lemmas -/

theorem hexCharVal_digitChar {n : Nat} (h : n < 16) :
    hexCharVal (Nat.digitChar n) = some n := by
  interval_cases n <;> rfl

theorem hex2bufAux_flatten (l : Bytes) (h : ∀ b ∈ l, b < 256) :
    hex2bufAux ((l.map byteToHexChars).flatten) = l := by
  induction l with
  | nil => rfl
  | cons b t ih =>
    have hb : b < 256 := h b (List.mem_cons_self _ _)
    have hhi : b / 16 < 16 := Nat.div_lt_of_lt_mul (by omega)
    have hlo : b % 16 < 16 := Nat.mod_lt _ (by omega)
    have hstep : (List.map byteToHexChars (b :: t)).flatten
        = Nat.digitChar (b / 16) :: Nat.digitChar (b % 16) ::
          (List.map byteToHexChars t).flatten := rfl
    rw [hstep]
    simp only [hex2bufAux, hexCharVal_digitChar hhi, hexCharVal_digitChar hlo]
    rw [ih (fun x hx => h x (List.mem_cons_of_mem _ hx))]
    congr 1
    omega

theorem hex2buf_buf2hex (l : Bytes) (h : ∀ b ∈ l, b < 256) :
    hex2buf (buf2hex l) = l :=
  hex2bufAux_flatten l h

theorem buf2hex_data (l : Bytes) : (buf2hex l).data = (l.map byteToHexChars).flatten := rfl

theorem buf2hex_data_length (l : Bytes) : (buf2hex l).data.length = 2 * l.length := by
  rw [buf2hex_data, List.length_flatten]
  induction l with
  | nil => rfl
  | cons b t ih =>
    simp only [List.map_cons, List.sum_cons, List.length_cons]
    rw [show (byteToHexChars b).length = 2 from rfl]
    omega

theorem bufferFromArray_eq_self (l : Bytes) (h : ∀ b ∈ l, b < 256) :
    bufferFromArray l = l := by
  induction l with
  | nil => rfl
  | cons b t ih =>
    simp only [bufferFromArray, List.map_cons] at ih ⊢
    rw [Nat.mod_eq_of_lt (h b (List.mem_cons_self _ _)),
      ih (fun x hx => h x (List.mem_cons_of_mem _ hx))]

theorem zipWithXor_length (a b : Bytes) :
    (zipWithXor a b).length = max a.length b.length := by
  induction a generalizing b with
  | nil => cases b <;> simp [zipWithXor]
  | cons x xs ih =>
    cases b with
    | nil => simp [zipWithXor]
    | cons y ys => simp only [zipWithXor, List.length_cons, ih]; omega

theorem zipWithXor_lt_256 : ∀ (a b : Bytes), (∀ x ∈ a, x < 256) → (∀ x ∈ b, x < 256) →
    ∀ x ∈ zipWithXor a b, x < 256 := by
  intro a
  induction a with
  | nil => exact fun b _ hb => by simpa [zipWithXor] using hb
  | cons x xs ih =>
    intro b ha hb
    cases b with
    | nil => simpa [zipWithXor] using ha
    | cons y ys =>
      intro z hz
      simp only [zipWithXor, List.mem_cons] at hz
      rcases hz with rfl | hz
      · have h1 : x < 256 := ha x (List.mem_cons_self _ _)
        have h2 : y < 256 := hb y (List.mem_cons_self _ _)
        have e : (256 : Nat) = 2 ^ 8 := by norm_num
        rw [e] at h1 h2 ⊢
        exact Nat.xor_lt_two_pow h1 h2
      · exact ih ys (fun u hu => ha u (List.mem_cons_of_mem _ hu))
          (fun u hu => hb u (List.mem_cons_of_mem _ hu)) z hz

theorem xor_step (n p q : Nat) : ((n ^^^ p) ^^^ q) ^^^ q = n ^^^ p :=
  Nat.xor_cancel_right _ _

theorem xor_unshard_aux (n p q : Nat) : (((n ^^^ p) ^^^ q) ^^^ p) ^^^ q = n := by
  have h1 : ((n ^^^ p) ^^^ q) ^^^ p = ((n ^^^ p) ^^^ p) ^^^ q := by
    rw [Nat.xor_assoc (n ^^^ p) q p, Nat.xor_comm q p, ← Nat.xor_assoc]
  rw [h1, Nat.xor_cancel_right, Nat.xor_cancel_right]

theorem zipWithXor_unshard1 (x a b : Bytes) (ha : a.length = x.length)
    (hb : b.length = x.length) :
    zipWithXor (zipWithXor (zipWithXor (zipWithXor x a) b) a) b = x := by
  induction x generalizing a b with
  | nil =>
    cases a with
    | nil => cases b with
      | nil => rfl
      | cons _ _ => simp at hb
    | cons _ _ => simp at ha
  | cons xh xt ih =>
    cases a with
    | nil => simp at ha
    | cons ah at' =>
      cases b with
      | nil => simp at hb
      | cons bh bt =>
        simp only [List.length_cons] at ha hb
        simp only [zipWithXor, List.cons.injEq]
        exact ⟨xor_unshard_aux xh ah bh, ih at' bt (by omega) (by omega)⟩

theorem zipWithXor_unshard2 (x a b : Bytes) (ha : a.length = x.length)
    (hb : b.length = x.length) :
    zipWithXor (zipWithXor (zipWithXor (zipWithXor x a) b) b) a = x := by
  induction x generalizing a b with
  | nil =>
    cases a with
    | nil => cases b with
      | nil => rfl
      | cons _ _ => simp at hb
    | cons _ _ => simp at ha
  | cons xh xt ih =>
    cases a with
    | nil => simp at ha
    | cons ah at' =>
      cases b with
      | nil => simp at hb
      | cons bh bt =>
        simp only [List.length_cons] at ha hb
        simp only [zipWithXor, List.cons.injEq]
        exact ⟨by rw [Nat.xor_cancel_right, Nat.xor_cancel_right],
          ih at' bt (by omega) (by omega)⟩

theorem uniqWith_cons (x : Bytes) (xs : List Bytes) :
    uniqWith (x :: xs) = x :: uniqWithAux [x] xs := by
  simp [uniqWith, uniqWithAux]

theorem uniqWith_aba'c (a b c : Bytes) (hab : a ≠ b) (hac : a ≠ c) (hbc : b ≠ c) :
    uniqWith [a, b, a, c] = [a, b, c] := by
  simp [uniqWith, uniqWithAux, hab, hac, hbc, hab.symm, hac.symm, hbc.symm]

theorem uniqWith_abbc (a b c : Bytes) (hab : a ≠ b) (hac : a ≠ c) (hbc : b ≠ c) :
    uniqWith [a, b, b, c] = [a, b, c] := by
  simp [uniqWith, uniqWithAux, hab, hac, hbc, hab.symm, hac.symm, hbc.symm]

theorem uniqWith_abcb (a b c : Bytes) (hab : a ≠ b) (hac : a ≠ c) (hbc : b ≠ c) :
    uniqWith [a, b, c, b] = [a, b, c] := by
  simp [uniqWith, uniqWithAux, hab, hac, hbc, hab.symm, hac.symm, hbc.symm]

theorem zip_map_self {α β : Type} (f : α → β) (l : List α) :
    (l.map f).zip l = l.map (fun a => (f a, a)) := by
  induction l with
  | nil => rfl
  | cons x xs ih => simp [List.zip_cons_cons, ih]

theorem strBytes_injective : Function.Injective strBytes := by
  intro s t h
  apply String.ext
  have : Function.Injective Char.toNat := by
    intro a b hab
    exact Char.eq_of_val_eq (UInt32.toNat.inj hab)
  exact List.map_injective_iff.mpr this h

/-! ### Injectivity of the decimal rendering used in salt strings -/

/-- Decimal digit characters of `n`, most significant first (a fuel-free
counterpart of `Nat.toDigits 10`). -/
def decDigits (n : Nat) : List Char :=
  if _h : n < 10 then [Nat.digitChar n]
  else decDigits (n / 10) ++ [Nat.digitChar (n % 10)]
termination_by n
decreasing_by
  exact Nat.div_lt_self (by omega) (by omega)

theorem toDigitsCore_eq_decDigits :
    ∀ (fuel n : Nat) (ds : List Char), n < fuel →
      Nat.toDigitsCore 10 fuel n ds = decDigits n ++ ds := by
  intro fuel
  induction fuel with
  | zero => intro n ds h; omega
  | succ f ih =>
    intro n ds h
    rw [show Nat.toDigitsCore 10 (f + 1) n ds
        = if n / 10 = 0 then Nat.digitChar (n % 10) :: ds
          else Nat.toDigitsCore 10 f (n / 10) (Nat.digitChar (n % 10) :: ds) from rfl]
    by_cases h10 : n / 10 = 0
    · have hn : n < 10 := by omega
      rw [if_pos h10, decDigits, dif_pos hn, Nat.mod_eq_of_lt hn]
      rfl
    · rw [if_neg h10]
      have hlt : n / 10 < f := by
        have h1 : n / 10 < n := Nat.div_lt_self (by omega) (by omega)
        omega
      rw [ih (n / 10) _ hlt]
      conv_rhs => rw [decDigits, dif_neg (show ¬ n < 10 by omega)]
      simp [List.append_assoc]

/-- Decimal value of a digit list relative to an accumulator. -/
def digitsVal (acc : Nat) (ds : List Char) : Nat :=
  ds.foldl (fun a c => a * 10 + (c.toNat - 48)) acc

theorem digitChar_toNat_of_lt_10 {n : Nat} (h : n < 10) :
    (Nat.digitChar n).toNat = 48 + n := by
  interval_cases n <;> rfl

theorem digitsVal_decDigits (n : Nat) :
    ∀ acc, digitsVal acc (decDigits n) = acc * 10 ^ (decDigits n).length + n := by
  induction n using Nat.strong_induction_on with
  | _ n ih =>
    intro acc
    by_cases h : n < 10
    · rw [decDigits, dif_pos h]
      simp [digitsVal, digitChar_toNat_of_lt_10 h, pow_one]
    · conv_lhs => rw [decDigits, dif_neg h]
      conv_rhs => rw [decDigits, dif_neg h]
      have hlt : n / 10 < n := Nat.div_lt_self (by omega) (by omega)
      have hmod : n % 10 < 10 := Nat.mod_lt _ (by omega)
      rw [digitsVal, List.foldl_append]
      rw [show List.foldl (fun a c => a * 10 + (c.toNat - 48)) acc (decDigits (n / 10))
          = digitsVal acc (decDigits (n / 10)) from rfl]
      rw [ih (n / 10) hlt acc]
      simp only [List.foldl_cons, List.foldl_nil, List.length_append, List.length_cons,
        List.length_nil, digitChar_toNat_of_lt_10 hmod, Nat.pow_succ]
      have h48 : (48 : Nat) + n % 10 - 48 = n % 10 := by omega
      rw [h48]
      have hdm := Nat.div_add_mod n 10
      have e : (acc * 10 ^ (decDigits (n / 10)).length + n / 10) * 10 + n % 10
          = acc * (10 ^ (decDigits (n / 10)).length * 10) + (10 * (n / 10) + n % 10) := by
        ring
      rw [e, hdm]

theorem decDigits_injective : Function.Injective decDigits := by
  intro m n h
  have hm := digitsVal_decDigits m 0
  have hn := digitsVal_decDigits n 0
  simp only [Nat.zero_mul, Nat.zero_add] at hm hn
  rw [h] at hm
  omega

theorem Nat_repr_injective : Function.Injective Nat.repr := by
  intro m n h
  apply decDigits_injective
  have hm : Nat.repr m = (decDigits m).asString := by
    rw [Nat.repr, Nat.toDigits, toDigitsCore_eq_decDigits (m + 1) m [] (by omega),
      List.append_nil]
  have hn : Nat.repr n = (decDigits n).asString := by
    rw [Nat.repr, Nat.toDigits, toDigitsCore_eq_decDigits (n + 1) n [] (by omega),
      List.append_nil]
  rw [hm, hn] at h
  have : (decDigits m).asString.data = (decDigits n).asString.data := by rw [h]
  simpa [List.asString] using this

theorem listEncode_injective : Function.Injective listEncode := by
  intro a
  induction a with
  | nil =>
    intro b h
    cases b with
    | nil => rfl
    | cons y ys => simp [listEncode] at h
  | cons x xs ih =>
    intro b h
    cases b with
    | nil => simp [listEncode] at h
    | cons y ys =>
      simp only [listEncode, List.foldr_cons, Nat.add_right_cancel_iff] at h
      rw [show xs.foldr (fun a b => Nat.pair a b + 1) 0 = listEncode xs from rfl,
        show ys.foldr (fun a b => Nat.pair a b + 1) 0 = listEncode ys from rfl] at h
      obtain ⟨h1, h2⟩ := Nat.pair_eq_pair.mp h
      rw [h1, ih h2]

theorem childSalt_data_none (t : String) (r : Nat) :
    (childSalt t r none).data = t.data ++ ('-' :: (Nat.repr r).data) := by
  simp [childSalt, String.data_append]

theorem childSalt_data_some (t : String) (r v : Nat) :
    (childSalt t r (some v)).data
      = t.data ++ ('-' :: ((Nat.repr r).data ++ ('-' :: (Nat.repr v).data))) := by
  simp [childSalt, String.data_append]

theorem childSalt_type_inj {t1 t2 : String} {r : Nat} {s : Option Nat}
    (h : childSalt t1 r s = childSalt t2 r s) : t1 = t2 := by
  cases s with
  | none =>
    have hd : (childSalt t1 r none).data = (childSalt t2 r none).data := by rw [h]
    rw [childSalt_data_none, childSalt_data_none] at hd
    exact String.ext (List.append_cancel_right hd)
  | some v =>
    have hd : (childSalt t1 r (some v)).data = (childSalt t2 r (some v)).data := by rw [h]
    rw [childSalt_data_some, childSalt_data_some] at hd
    exact String.ext (List.append_cancel_right hd)

theorem childSalt_rev_inj {t : String} {r1 r2 : Nat} {s : Option Nat}
    (h : childSalt t r1 s = childSalt t r2 s) : r1 = r2 := by
  cases s with
  | none =>
    have hd : (childSalt t r1 none).data = (childSalt t r2 none).data := by rw [h]
    rw [childSalt_data_none, childSalt_data_none] at hd
    have h1 := List.append_cancel_left hd
    simp only [List.cons.injEq, true_and] at h1
    exact Nat_repr_injective (String.ext h1)
  | some v =>
    have hd : (childSalt t r1 (some v)).data = (childSalt t r2 (some v)).data := by rw [h]
    rw [childSalt_data_some, childSalt_data_some] at hd
    have h1 := List.append_cancel_left hd
    simp only [List.cons.injEq, true_and] at h1
    exact Nat_repr_injective (String.ext (List.append_cancel_right h1))

theorem childSalt_ship_inj {t : String} {r : Nat} {s1 s2 : Option Nat}
    (h : childSalt t r s1 = childSalt t r s2) : s1 = s2 := by
  cases s1 with
  | none =>
    cases s2 with
    | none => rfl
    | some v =>
      exfalso
      have hd : (childSalt t r none).data.length = (childSalt t r (some v)).data.length := by
        rw [h]
      rw [childSalt_data_none, childSalt_data_some] at hd
      simp only [List.length_append, List.length_cons] at hd
      omega
  | some v1 =>
    cases s2 with
    | none =>
      exfalso
      have hd : (childSalt t r (some v1)).data.length = (childSalt t r none).data.length := by
        rw [h]
      rw [childSalt_data_some, childSalt_data_none] at hd
      simp only [List.length_append, List.length_cons] at hd
      omega
    | some v2 =>
      have hd : (childSalt t r (some v1)).data = (childSalt t r (some v2)).data := by rw [h]
      rw [childSalt_data_some, childSalt_data_some] at hd
      have h1 := List.append_cancel_left hd
      simp only [List.cons.injEq, true_and] at h1
      have h2 := List.append_cancel_left h1
      simp only [List.cons.injEq, true_and] at h2
      rw [Nat_repr_injective (String.ext h2)]

theorem empty_append_str (s : String) : "" ++ s = s :=
  String.ext (by simp)

theorem splitAt_hexpair (a b : Bytes) (h : a.length = b.length) :
    splitAt ((buf2hex a ++ buf2hex b).length / 2) (buf2hex a ++ buf2hex b)
      = (buf2hex a, buf2hex b) := by
  have hlen : (buf2hex a ++ buf2hex b).length / 2 = (buf2hex a).data.length := by
    have h1 : (buf2hex a).length = (buf2hex a).data.length := rfl
    have h2 : (buf2hex b).length = (buf2hex b).data.length := rfl
    rw [String.length_append, h1, h2, buf2hex_data_length, buf2hex_data_length, h]
    omega
  rw [splitAt, hlen]
  have hdata : (buf2hex a ++ buf2hex b).data = (buf2hex a).data ++ (buf2hex b).data :=
    String.data_append _ _
  rw [hdata, List.take_left, List.drop_left]

theorem shard_eq (x r1 r2 : Bytes) (hx : ∀ b ∈ x, b < 256)
    (hr1 : ∀ b ∈ r1, b < 256) (hr2 : ∀ b ∈ r2, b < 256) :
    shard r1 r2 (buf2hex x)
      = [buf2hex (zipWithXor (zipWithXor x r1) r2) ++ buf2hex r1,
         buf2hex (zipWithXor (zipWithXor x r1) r2) ++ buf2hex r2,
         buf2hex r1 ++ buf2hex r2] := by
  have hk0 : ∀ b ∈ zipWithXor (zipWithXor x r1) r2, b < 256 :=
    zipWithXor_lt_256 _ _ (zipWithXor_lt_256 _ _ hx hr1) hr2
  simp only [shard, shardBuffer, hex2buf_buf2hex x hx, reduceByXor, List.foldl_cons,
    List.foldl_nil, Option.getD_some, List.map_cons, List.map_nil]
  rw [bufferFromArray_eq_self _ hk0, bufferFromArray_eq_self _ hr1,
    bufferFromArray_eq_self _ hr2]
  simp only [empty_append_str]

theorem combine_hexpair (a b c d : Bytes)
    (hab : a.length = b.length) (hcd : c.length = d.length)
    (ha : ∀ u ∈ a, u < 256) (hb : ∀ u ∈ b, u < 256)
    (hc : ∀ u ∈ c, u < 256) (hd : ∀ u ∈ d, u < 256) :
    combine [buf2hex a ++ buf2hex b, buf2hex c ++ buf2hex d]
      = (reduceByXor (uniqWith [a, b, c, d])).map (fun l => buf2hex (bufferFromArray l)) := by
  simp only [combine, List.map_cons, List.map_nil]
  rw [splitAt_hexpair a b hab, splitAt_hexpair c d hcd]
  simp only [hex2buf_buf2hex a ha, hex2buf_buf2hex b hb, hex2buf_buf2hex c hc,
    hex2buf_buf2hex d hd, combineBuffer, List.flatten_cons, List.flatten_nil,
    List.cons_append, List.nil_append, List.append_nil, Option.map_map]
  rfl

/-! ## Claims -/

/-- C2 (counterexample): `combine` applied to a single shard does not fail:
on the single shard `"0102"` it returns the value `"03"` (the XOR of the two
pads), refuting the claim that supplying 1 shard fails with an
insufficient-shards error condition rather than returning a value. -/
theorem combine_single_shard_counterexample : combine ["0102"] = some "03" := by decide

/-- C2 (amended): `combine` with 0 shards fails (the XOR-reduce of an empty
collection throws, modelled by `none`), but `combine` with 1 shard does not
fail: it always returns a value (which in general is not the original
secret). -/
theorem combine_insufficient_shards :
    combine ([] : List String) = none
    ∧ ∀ s : String, (combine [s]).isSome = true := by
  refine ⟨rfl, fun s => ?_⟩
  simp only [combine, combineBuffer, List.map_cons, List.map_nil, List.flatten_cons,
    List.flatten_nil, List.cons_append, List.nil_append, List.append_nil]
  rw [uniqWith_cons]
  simp [reduceByXor]

/-- C3: `urbitKeysFromSeed` hashes the byte-reversed concatenation
`seed ++ password` with the 64-byte hash, takes `a = h[0:32]` as the auth
seed and `c = h[32:64]` as the crypt seed, derives a signature keypair from
each half, and byte-reverses each of the four output byte strings (crypt
private, crypt public, auth private, auth public) before hex-encoding. -/
theorem urbitKeysFromSeed_structure
    (hash64 kpPub : Bytes → Bytes) (h64 : ∀ m, (hash64 m).length = 64)
    (seed password : Bytes) :
    urbitKeysFromSeed hash64 kpPub seed (JsArg.buf password)
      = some
        { crypt :=
            { «private» := buf2hex ((hash64 (seed ++ password).reverse).drop 32).reverse
              public := buf2hex (kpPub ((hash64 (seed ++ password).reverse).drop 32)).reverse }
          auth :=
            { «private» := buf2hex ((hash64 (seed ++ password).reverse).take 32).reverse
              public := buf2hex (kpPub ((hash64 (seed ++ password).reverse).take 32)).reverse } }
    ∧ ((hash64 (seed ++ password).reverse).take 32).length = 32
    ∧ ((hash64 (seed ++ password).reverse).drop 32).length = 32 := by
  refine ⟨rfl, ?_, ?_⟩
  · simp [List.length_take, h64]
  · simp [List.length_drop, h64]

/-- C3 (witness): the structure theorem instantiated at the concrete 64-byte
hash `digest0`, `kpPub = kp0`, seed `[1]` and password `[2]`. -/
theorem urbitKeysFromSeed_structure_witness :
    ((digest0 (([1] ++ [2] : Bytes)).reverse).take 32).length = 32 :=
  (urbitKeysFromSeed_structure digest0 kp0 (fun m => by simp [digest0]) [1] [2]).2.1

/-- C4 (counterexample): for a 65-byte parent seed and a digest of the fixed
64-byte SHA-512 output width, the child seed has length 64, not the parent's
65, refuting the claim that the child seed always has the same length as the
parent seed. -/
theorem childSeedFromSeed_length_counterexample :
    (childSeedFromSeed digest0 ⟨List.replicate 65 1, "transfer", 0, none, none⟩).length
      ≠ (List.replicate 65 1 : Bytes).length := by decide

/-- C4 (amended): `childSeedFromSeed` builds the salt
`"{type}-{revision}-{ship}"` when the target ship is present and
`"{type}-{revision}"` when it is absent, digests
`parentSeed ++ salt ++ password`, and truncates the digest to the byte length
of the parent seed; the child seed's length is `min parentLen 64`, so it
equals the parent's length exactly when the parent is at most the 64-byte
digest width. -/
theorem childSeedFromSeed_spec
    (digest : Bytes → Bytes) (hdig : ∀ x, (digest x).length = 64)
    (config : ChildSeedConfig) (_hne : config.seed ≠ []) :
    childSeedFromSeed digest config
      = (digest (config.seed
          ++ strBytes (childSalt config.type config.revision config.ship)
          ++ strBytes (config.password.getD ""))).take config.seed.length
    ∧ (config.ship = none →
        childSalt config.type config.revision config.ship
          = config.type ++ "-" ++ Nat.repr config.revision)
    ∧ (∀ s, config.ship = some s →
        childSalt config.type config.revision config.ship
          = config.type ++ "-" ++ Nat.repr config.revision ++ "-" ++ Nat.repr s)
    ∧ (childSeedFromSeed digest config).length = min config.seed.length 64 := by
  refine ⟨rfl, ?_, ?_, ?_⟩
  · intro hs; rw [hs]; rfl
  · intro s hs; rw [hs]; rfl
  · simp [childSeedFromSeed, List.length_take, hdig]

/-- C4 (witness): the spec theorem instantiated at the 64-byte digest
`digest0` and the 2-byte parent seed `[1, 2]`. -/
theorem childSeedFromSeed_spec_witness :
    (childSeedFromSeed digest0 ⟨[1, 2], "transfer", 0, none, none⟩).length = min 2 64 :=
  (childSeedFromSeed_spec digest0 (fun x => by simp [digest0])
    ⟨[1, 2], "transfer", 0, none, none⟩ (by decide)).2.2.2

/-- C5 (counterexample): calling `urbitKeysFromSeed` with the password
omitted is not defined: `bufferConcat([seed, undefined])` throws a
`TypeError` (modelled by `none`), refuting the claim that every derivation
function treats an omitted password like the empty-string password. -/
theorem urbitKeys_password_omitted_counterexample :
    urbitKeysFromSeed digest0 kp0 [1] JsArg.undef = none := rfl

/-- C5 (amended): `walletFromSeed` and `childSeedFromSeed` treat an omitted
password exactly like the explicit empty-string password; `urbitKeysFromSeed`
does not default its password: with the password omitted (`undefined`) — or
supplied as a string such as `''` — `Buffer.concat` throws instead of
returning a result, so only buffer passwords are accepted. -/
theorem password_default_equivalence
    (digest : Bytes → Bytes) (fromSeed : Bytes → Bip32Keys) (hash64 kpPub : Bytes → Bytes)
    (seed : Bytes) (t : String) (r : Nat) (s : Option Nat) :
    walletFromSeed digest fromSeed seed none = walletFromSeed digest fromSeed seed (some "")
    ∧ childSeedFromSeed digest ⟨seed, t, r, s, none⟩
        = childSeedFromSeed digest ⟨seed, t, r, s, some ""⟩
    ∧ urbitKeysFromSeed hash64 kpPub seed JsArg.undef = none
    ∧ urbitKeysFromSeed hash64 kpPub seed (JsArg.str "") = none :=
  ⟨rfl, rfl, rfl, rfl⟩

/-- C8: `shard` in `src/index.js` has no minimum-length passthrough: on the
short (non-hex) ticket `'~doznec-marbud'` — the very input the repository's
test expects to yield a single-element shard set — it returns a 3-element
shard set (of empty-string shards, since the hex decoder consumes nothing). -/
theorem shard_short_input_three_shards :
    (shard [] [] "~doznec-marbud").length = 3
    ∧ shard [] [] "~doznec-marbud" = ["", "", ""] := by decide

/-- C10: `shardWallet` only replaces `owner.seed` by the shard set of the
original owner seed; every other field (including `owner.keys`) is kept
unchanged, and the input wallet itself is untouched (the code deep-clones it
before the update, and the embedding is pure). -/
theorem shardWallet_frame (r1 r2 : Bytes) (w : Wallet) :
    (shardWallet r1 r2 w).owner.seed = shard r1 r2 w.owner.seed
    ∧ (shardWallet r1 r2 w).owner.keys = w.owner.keys
    ∧ (shardWallet r1 r2 w).delegate = w.delegate
    ∧ (shardWallet r1 r2 w).manage = w.manage
    ∧ (shardWallet r1 r2 w).network = w.network
    ∧ (shardWallet r1 r2 w).transfer = w.transfer
    ∧ (shardWallet r1 r2 w).spawn = w.spawn :=
  ⟨rfl, rfl, rfl, rfl, rfl, rfl, rfl⟩

/-- C6: when `boot` (includeNetwork) is true, every network seed of the
assembled wallet is derived from the management node's seed (the code passes
`bufferFrom(managementNode.seed)`, i.e. the bytes of the management node's
hex seed string — not the root seed), with purpose `"network"`, the network
revision, and the corresponding target ship present in the derivation
context. -/
theorem fullWallet_network_seed_from_management
    (digest : Bytes → Bytes) (fromSeed : Bytes → Bip32Keys) (hash64 kpPub : Bytes → Bytes)
    (config : FullWalletConfig) (hboot : config.boot = true) :
    (fullWalletFromSeed digest fromSeed hash64 kpPub config).network.map (fun n => n.seed)
      = config.ships.map (fun ship => buf2hex (childSeedFromSeed digest
          { seed := strBytes (fullWalletFromSeed digest fromSeed hash64 kpPub config).manage.seed
            type := "network"
            revision := config.revisions.network.getD 0
            ship := some ship
            password := config.password })) := by
  simp only [fullWalletFromSeed, hboot, if_true, zip_map_self, List.map_map]
  rfl

/-- C6 (witness): the theorem instantiated at the concrete primitives and the
one-ship, `boot := true` configuration `cfgW`. -/
theorem fullWallet_network_seed_from_management_witness :
    (fullWalletFromSeed digest0 fs0 digest0 kp0 cfgW).network.map (fun n => n.seed)
      = ["00010203"] :=
  (fullWallet_network_seed_from_management digest0 fs0 digest0 kp0 cfgW rfl).trans (by decide)

/-- C7: the assembled wallet's `transfer`, `spawn` and (when `boot` is true)
`network` sequences carry exactly one node per entry of `ships`, in the same
order — node `i` carries ship `ships[i]` — and when `boot` is false the
`network` sequence is empty. -/
theorem fullWallet_target_order
    (digest : Bytes → Bytes) (fromSeed : Bytes → Bip32Keys) (hash64 kpPub : Bytes → Bytes)
    (config : FullWalletConfig) :
    (fullWalletFromSeed digest fromSeed hash64 kpPub config).transfer.map (fun n => n.meta.ship)
        = config.ships.map some
    ∧ (fullWalletFromSeed digest fromSeed hash64 kpPub config).spawn.map (fun n => n.meta.ship)
        = config.ships.map some
    ∧ (config.boot = true →
        (fullWalletFromSeed digest fromSeed hash64 kpPub config).network.map
            (fun n => n.meta.ship)
          = config.ships.map some)
    ∧ (config.boot = false →
        (fullWalletFromSeed digest fromSeed hash64 kpPub config).network = []) := by
  refine ⟨?_, ?_, ?_, ?_⟩
  · simp [fullWalletFromSeed, childNodeFromSeed, List.map_map]
  · simp [fullWalletFromSeed, childNodeFromSeed, List.map_map]
  · intro hboot
    simp only [fullWalletFromSeed, hboot, if_true, zip_map_self, List.map_map]
    rfl
  · intro hboot
    simp [fullWalletFromSeed, hboot]

/-- C7 (witness): the theorem instantiated at the concrete primitives, the
`boot := true` configuration `cfgW` and the `boot := false` configuration
`cfgW'`. -/
theorem fullWallet_target_order_witness :
    (fullWalletFromSeed digest0 fs0 digest0 kp0 cfgW).transfer.map (fun n => n.meta.ship)
        = [some 7]
    ∧ (fullWalletFromSeed digest0 fs0 digest0 kp0 cfgW).network.map (fun n => n.meta.ship)
        = [some 7]
    ∧ (fullWalletFromSeed digest0 fs0 digest0 kp0 cfgW').network = [] :=
  ⟨((fullWallet_target_order digest0 fs0 digest0 kp0 cfgW).1).trans (by decide),
   ((fullWallet_target_order digest0 fs0 digest0 kp0 cfgW).2.2.1 rfl).trans (by decide),
   (fullWallet_target_order digest0 fs0 digest0 kp0 cfgW').2.2.2 rfl⟩

/-- C9: for a fixed parent seed and password, changing the purpose (type),
the revision, or the presence or value of the target (ship) changes the salt
string, hence the digest input, hence — for any digest whose truncation to
the parent-seed length is collision-free — the derived child seed. -/
theorem childSeedFromSeed_salt_sensitivity
    (digest : Bytes → Bytes) (seed : Bytes) (pw : Option String)
    (t1 t2 : String) (r1 r2 : Nat) (s1 s2 : Option Nat)
    (hchange : (t1 ≠ t2 ∧ r1 = r2 ∧ s1 = s2) ∨ (t1 = t2 ∧ r1 ≠ r2 ∧ s1 = s2)
      ∨ (t1 = t2 ∧ r1 = r2 ∧ s1 ≠ s2))
    (hd : ∀ x y : Bytes, x ≠ y →
      (digest x).take seed.length ≠ (digest y).take seed.length) :
    childSeedFromSeed digest ⟨seed, t1, r1, s1, pw⟩
      ≠ childSeedFromSeed digest ⟨seed, t2, r2, s2, pw⟩ := by
  intro heq
  simp only [childSeedFromSeed] at heq
  have hin : seed ++ strBytes (childSalt t1 r1 s1) ++ strBytes (pw.getD "")
      = seed ++ strBytes (childSalt t2 r2 s2) ++ strBytes (pw.getD "") := by
    by_contra hc
    exact hd _ _ hc heq
  have hsalt : childSalt t1 r1 s1 = childSalt t2 r2 s2 :=
    strBytes_injective (List.append_cancel_left (List.append_cancel_right hin))
  rcases hchange with ⟨hne, rfl, rfl⟩ | ⟨rfl, hne, rfl⟩ | ⟨rfl, rfl, hne⟩
  · exact hne (childSalt_type_inj hsalt)
  · exact hne (childSalt_rev_inj hsalt)
  · exact hne (childSalt_ship_inj hsalt)

/-- C9 (witness): at the truncation-collision-free digest `digestInj` and the
1-byte seed `[1]`, changing the purpose from `"transfer"` to `"spawn"`
changes the child seed. -/
theorem childSeedFromSeed_salt_sensitivity_witness :
    childSeedFromSeed digestInj ⟨[1], "transfer", 0, none, none⟩
      ≠ childSeedFromSeed digestInj ⟨[1], "spawn", 0, none, none⟩ :=
  childSeedFromSeed_salt_sensitivity digestInj [1] none "transfer" "spawn" 0 0 none none
    (Or.inl ⟨by decide, rfl, rfl⟩)
    (fun x y hxy hc => hxy (listEncode_injective (by simpa [digestInj] using hc)))

/-- C1 (counterexample): with secret byte `[1]` and both random pads drawn
equal to `[2]`, the derived pad is `k0 = [1]` and the shards are
`["0102", "0102", "0202"]`; combining the first two shards deduplicates the
repeated pad values down to `{[1], [2]}` and returns `"03"`, not the secret
`"01"` — so the round-trip law does not hold for every pad draw. -/
theorem shard_combine_counterexample :
    shard [2] [2] (buf2hex [1]) = ["0102", "0102", "0202"]
    ∧ combine ["0102", "0102"] ≠ some (buf2hex [1]) := by decide

/-- C1 (amended): whenever the three pad values `k0 = x XOR r1 XOR r2`, `r1`
and `r2` are pairwise distinct — which fails only with negligible probability
for random pads — combining any 2 of the 3 shards produced by sharding `x`
returns `x` (as its hex encoding, the pipeline's interface form). -/
theorem shard_combine_roundtrip
    (x r1 r2 : Bytes)
    (hx : ∀ b ∈ x, b < 256) (hr1 : ∀ b ∈ r1, b < 256) (hr2 : ∀ b ∈ r2, b < 256)
    (hl1 : r1.length = x.length) (hl2 : r2.length = x.length)
    (hd1 : zipWithXor (zipWithXor x r1) r2 ≠ r1)
    (hd2 : zipWithXor (zipWithXor x r1) r2 ≠ r2)
    (hd3 : r1 ≠ r2)
    (s0 s1 s2 : String)
    (hs : shard r1 r2 (buf2hex x) = [s0, s1, s2]) :
    combine [s0, s1] = some (buf2hex x)
    ∧ combine [s0, s2] = some (buf2hex x)
    ∧ combine [s1, s2] = some (buf2hex x) := by
  have hk0b : ∀ b ∈ zipWithXor (zipWithXor x r1) r2, b < 256 :=
    zipWithXor_lt_256 _ _ (zipWithXor_lt_256 _ _ hx hr1) hr2
  have hk0l : (zipWithXor (zipWithXor x r1) r2).length = x.length := by
    rw [zipWithXor_length, zipWithXor_length, hl1, hl2, Nat.max_self, Nat.max_self]
  rw [shard_eq x r1 r2 hx hr1 hr2] at hs
  obtain ⟨h0, h1, h2⟩ : _ ∧ _ ∧ _ := by simpa using hs.symm
  subst h0 h1 h2
  refine ⟨?_, ?_, ?_⟩
  · rw [combine_hexpair _ _ _ _ (by omega) (by omega) hk0b hr1 hk0b hr2,
      uniqWith_aba'c _ _ _ hd1 hd2 hd3]
    simp only [reduceByXor, List.foldl_cons, List.foldl_nil]
    rw [zipWithXor_unshard1 x r1 r2 hl1 hl2]
    simp [bufferFromArray_eq_self x hx]
  · rw [combine_hexpair _ _ _ _ (by omega) (by omega) hk0b hr1 hr1 hr2,
      uniqWith_abbc _ _ _ hd1 hd2 hd3]
    simp only [reduceByXor, List.foldl_cons, List.foldl_nil]
    rw [zipWithXor_unshard1 x r1 r2 hl1 hl2]
    simp [bufferFromArray_eq_self x hx]
  · rw [combine_hexpair _ _ _ _ (by omega) (by omega) hk0b hr2 hr1 hr2,
      uniqWith_abcb _ _ _ hd2 hd1 (fun hc => hd3 hc.symm)]
    simp only [reduceByXor, List.foldl_cons, List.foldl_nil]
    rw [zipWithXor_unshard2 x r1 r2 hl1 hl2]
    simp [bufferFromArray_eq_self x hx]

/-- C1 (witness): secret `[1]`, pads `[2]` and `[3]` give the pairwise
distinct pad values `k0 = [0]`, `[2]`, `[3]` and shards
`["0002", "0003", "0203"]`; each of the three 2-shard combinations recovers
`"01"`. -/
theorem shard_combine_roundtrip_witness :
    combine ["0002", "0003"] = some (buf2hex [1])
    ∧ combine ["0002", "0203"] = some (buf2hex [1])
    ∧ combine ["0003", "0203"] = some (buf2hex [1]) :=
  shard_combine_roundtrip [1] [2] [3] (by decide) (by decide) (by decide) (by decide)
    (by decide) (by decide) (by decide) (by decide) "0002" "0003" "0203" (by decide)

end Keygen
